import Mathlib

/-!
Verification of the resource-addressing and spec-synchronization engine of
sdm-pack-k8s: a shallow embedding of the Kubernetes resource data model,
the cluster-resource classifier, the URI path builder, the spec file
basename generator, the spec matcher and the sync reconciler, together
with theorems checking the natural-language specification against them.
-/

/-- Metadata of a Kubernetes resource object: optional name and optional
namespace (`metadata.name` / `metadata.namespace` in the source). -/
structure K8sMetadata where
  name : Option String := none
  ns : Option String := none
deriving DecidableEq, Repr

/-- A Kubernetes resource object (`K8sObject` in `lib/kubernetes/api.ts`):
`apiVersion`, `kind` and `metadata`, all optional as in the TypeScript
interface.  The open-ended payload of a resource is not modelled; two
resources with the same identity but different payloads can be told apart
by their `apiVersion` in this model. -/
structure K8sObject where
  apiVersion : Option String := none
  kind : Option String := none
  metadata : K8sMetadata := {}
deriving DecidableEq, Repr

/-- The enumerated API actions (`create, delete, list, patch, read,
replace`). -/
inductive K8sAction
  | create
  | delete
  | list
  | patch
  | read
  | replace
deriving DecidableEq, Repr

/-- Modelled from the spec: the fixed cluster-resource kind list of the
Resource Classifier (section 4.1); `lib/kubernetes/api.ts` is not under
`src/`, only its tests and callers are. -/
def clusterResourceKinds : List String :=
  ["APIService", "AuditSink", "CertificateSigningRequest", "ClusterCustomObject",
   "ClusterRole", "ClusterRoleBinding", "CustomResourceDefinition",
   "InitializerConfiguration", "MutatingWebhookConfiguration", "Namespace",
   "Node", "PersistentVolume", "PodSecurityPolicy", "PriorityClass",
   "SelfSubjectAccessReview", "SelfSubjectRulesReview", "StorageClass",
   "SubjectAccessReview", "TokenReview", "ValidatingWebhookConfiguration",
   "VolumeAttachment"]

/-- Modelled from the spec: the status-subresource kind list of the
Resource Classifier (section 4.1); `lib/kubernetes/api.ts` is not under
`src/`. -/
def clusterStatusKinds : List String :=
  ["APIServiceStatus", "CertificateSigningRequestStatus",
   "CustomResourceDefinitionStatus", "NamespaceStatus", "NodeStatus",
   "PersistentVolumeStatus", "VolumeAttachmentStatus"]

/-- Modelled from the spec: `isClusterResource(action, kind)` of
`lib/kubernetes/api.ts` (not under `src/`), section 4.1: kinds in the
cluster list are cluster-scoped for every action; status kinds only for
patch, read and replace; `ComponentStatus` only for list and read; all
other kinds are namespaced. -/
def isClusterResource (action : K8sAction) (kind : String) : Bool :=
  if kind ∈ clusterResourceKinds then true
  else if kind ∈ clusterStatusKinds then
    match action with
    | .patch | .read | .replace => true
    | _ => false
  else if kind = "ComponentStatus" then
    match action with
    | .list | .read => true
    | _ => false
  else false

/-- Options computed by `uriOpts` (section 4.2). -/
structure UriOpts where
  appendName : Bool
  namespaceRequired : Bool
deriving DecidableEq, Repr

/-- Modelled from the spec: `uriOpts(action, kind)` of
`lib/kubernetes/api.ts` (not under `src/`): name is appended for delete,
patch, read and replace; a namespace is required exactly when the kind is
not cluster-scoped for the action. -/
def uriOpts (action : K8sAction) (kind : String) : UriOpts :=
  { appendName :=
      match action with
      | .delete | .patch | .read | .replace => true
      | _ => false,
    namespaceRequired := !(isClusterResource action kind) }

/-- Lowercasing a string character by character, as JavaScript
`toLowerCase` does on the ASCII kinds and names involved. -/
def lowerString (s : String) : String :=
  String.mk (s.data.map Char.toLower)

/-- Modelled from the spec: the pluralization of a kind used by the URI
Path Builder of `lib/kubernetes/api.ts` (not under `src/`): lowercase the
kind and append "s", overridden by the irregular-plural table for kinds
ending in a sibilant. -/
def pluralKind (kind : String) : String :=
  match kind with
  | "Ingress" => "ingresses"
  | "NetworkPolicy" => "networkpolicies"
  | "StorageClass" => "storageclasses"
  | "ComponentStatus" => "componentstatuses"
  | _ => lowerString kind ++ "s"

/-- A short rendering of a resource used in validation error messages,
standing in for the JSON stringification of the spec in the source. -/
def describeK8s (r : K8sObject) : String :=
  r.apiVersion.getD ("") ++ "/" ++ r.kind.getD ("") ++ "/"
    ++ r.metadata.ns.getD ("") ++ "/" ++ r.metadata.name.getD ("")

/-- Modelled from the spec: `specUriPath(resource, action)` of
`lib/kubernetes/api.ts` (not under `src/`), section 4.2: fail when the
kind is missing; resolve the apiVersion into the path prefix verbatim;
insert the `namespaces/{namespace}/` segment when the namespace is set;
append the plural kind; append the name when the action requires one,
failing when it is missing. -/
def specUriPath (spec : K8sObject) (action : K8sAction) : Except String String :=
  match spec.kind with
  | none => .error ("Spec does not contain kind: " ++ describeK8s spec)
  | some kind =>
    let opts := uriOpts action kind
    let pfx := spec.apiVersion.getD ("v1")
    let plural := pluralKind kind
    let nsSegment :=
      match spec.metadata.ns with
      | some n => "namespaces/" ++ n ++ "/"
      | none => ""
    if opts.appendName then
      match spec.metadata.name with
      | none => .error ("Spec does not contain name: " ++ describeK8s spec)
      | some name => .ok (pfx ++ "/" ++ nsSegment ++ plural ++ "/" ++ name)
    else .ok (pfx ++ "/" ++ nsSegment ++ plural)

/-- The numeric ordering class of `kubernetesSpecFileBasename` in
`lib/kubernetes/spec.ts`: the switch on `resource.kind`. -/
def classPriority (kind : String) : String :=
  match kind with
  | "Namespace" => "10"
  | "PersistentVolume" | "StorageClass" => "15"
  | "ServiceAccount" => "20"
  | "ClusterRole" | "Role" => "25"
  | "ClusterRoleBinding" | "RoleBinding" => "30"
  | "NetworkPolicy" | "PersistentVolumeClaim" | "PodSecurityPolicy" => "40"
  | "Service" => "50"
  | "ConfigMap" | "Secret" => "60"
  | "CronJob" | "DaemonSet" | "Deployment" | "StatefulSet" => "70"
  | "HorizontalPodAutoscaler" | "Ingress" | "PodDisruptionBudget" => "80"
  | _ => "90"

/-- The global replacement `replace(/([a-z])([A-Z])/g, "$1-$2")` on the
character list of the kind: insert a hyphen between a lowercase letter
and a following uppercase letter. -/
def kebabChars : List Char → List Char
  | [] => []
  | [c] => [c]
  | a :: b :: rest =>
    if a.isLower && b.isUpper then a :: '-' :: kebabChars (b :: rest)
    else a :: kebabChars (b :: rest)

/-- PascalCase to kebab-case conversion of a kind, as in
`lib/kubernetes/spec.ts`. -/
def kindKebab (kind : String) : String :=
  String.mk (kebabChars kind.data)

/-- `kubernetesSpecFileBasename(resource)` of `lib/kubernetes/spec.ts`:
`"{NN}_{namespace_}{name}_{kebab-kind}"` lowercased, where the namespace
segment is present exactly when `metadata.namespace` is truthy.  The
source assumes `kind` is present; a missing optional field renders as the
empty string here. -/
def kubernetesSpecFileBasename (resource : K8sObject) : String :=
  let pfx := classPriority (resource.kind.getD (""))
  let ns :=
    match resource.metadata.ns with
    | some n => if n = "" then "" else n ++ "_"
    | none => ""
  let kebabKind := kindKebab (resource.kind.getD (""))
  lowerString (pfx ++ "_" ++ ns ++ resource.metadata.name.getD ("") ++ "_" ++ kebabKind)

/-- A spec file of the sync repository: a path and its current content. -/
structure SpecFile where
  path : String
  content : String
deriving DecidableEq, Repr

/-- The working copy of the sync repository: the list of spec files (the
files matching the spec-file glob), in repository iteration order. -/
structure SyncProject where
  files : List SpecFile
deriving DecidableEq, Repr

/-- `p.getFile(path)`: the file at the given path, if any. -/
def getFile (p : SyncProject) (path : String) : Option SpecFile :=
  p.files.find? (fun f => decide (f.path = path))

/-- `file.setContent(content)` on the file at the given path. -/
def setContent (p : SyncProject) (path content : String) : SyncProject :=
  ⟨p.files.map (fun f => if f.path = path then ⟨f.path, content⟩ else f)⟩

/-- `p.addFile(path, content)`: append a new file. -/
def addFile (p : SyncProject) (path content : String) : SyncProject :=
  ⟨p.files ++ [⟨path, content⟩]⟩

/-- `p.deleteFile(path)`: remove the file at the given path. -/
def deleteFile (p : SyncProject) (path : String) : SyncProject :=
  ⟨p.files.filter (fun f => decide (f.path ≠ path))⟩

/-- The paths of a project, in order. -/
def projectPaths (p : SyncProject) : List String :=
  p.files.map (fun f => f.path)

/-- The external collaborators of the Spec Serializer and the scan phase:
JSON and YAML dumping, Secret-data encryption, and parsing of a spec file
content (`json-stable-stringify`, `js-yaml`, `encryptSecret` and
`parseKubernetesSpecFile` are outside this repository core). -/
structure Serializers where
  jsonDump : K8sObject → String
  yamlDump : K8sObject → String
  encrypt : K8sObject → String → K8sObject
  parse : String → Except String K8sObject

/-- Serialization format, `"json"` or `"yaml"`. -/
inductive SpecFormat
  | json
  | yaml
deriving DecidableEq, Repr

/-- `KubernetesSpecStringifyOptions` of `lib/kubernetes/spec.ts`. -/
structure KubernetesSpecStringifyOptions where
  format : SpecFormat := .json
  secretKey : Option String := none
deriving DecidableEq, Repr

/-- The Secret-encryption step of `kubernetesSpecStringify`: encrypt when
the resource kind is `"Secret"` and a (truthy) secret key is given. -/
def encryptIfSecret (S : Serializers) (secretKey : Option String) (r : K8sObject) : K8sObject :=
  match secretKey with
  | some key => if r.kind = some ("Secret") ∧ key ≠ "" then S.encrypt r key else r
  | none => r

/-- `kubernetesSpecStringify(spec, options)` of `lib/kubernetes/spec.ts`:
encrypt Secret data when a key is supplied, then dump as key-sorted YAML,
or as stable JSON with a trailing newline. -/
def kubernetesSpecStringify (S : Serializers) (options : KubernetesSpecStringifyOptions)
    (spec : K8sObject) : String :=
  let resource := encryptIfSecret S options.secretKey spec
  match options.format with
  | .yaml => S.yamlDump resource
  | .json => S.jsonDump resource ++ "\n"

/-- `ProjectFileSpec` of `lib/sync/application.ts`: a repository file
together with its parsed resource spec. -/
structure ProjectFileSpec where
  file : SpecFile
  spec : K8sObject
deriving DecidableEq, Repr

/-- The match predicate of `matchSpec`: equal kind, equal metadata.name
and equal metadata.namespace (each possibly undefined). -/
def specMatches (spec : K8sObject) (fs : ProjectFileSpec) : Bool :=
  decide (spec.kind = fs.spec.kind) && decide (spec.metadata.name = fs.spec.metadata.name)
    && decide (spec.metadata.ns = fs.spec.metadata.ns)

/-- `matchSpec(spec, fileSpecs)` of `lib/sync/application.ts`: the first
file-and-spec pair whose spec has the same kind, name and namespace, or
none. -/
def matchSpec (spec : K8sObject) (fileSpecs : List ProjectFileSpec) : Option ProjectFileSpec :=
  fileSpecs.find? (specMatches spec)

/-- The identity key on which `matchSpec` matches. -/
def specKey (r : K8sObject) : Option String × Option String × Option String :=
  (r.kind, r.metadata.name, r.metadata.ns)

/-- The test `/\.ya?ml$/.test(path)` of `resourceUpserted`: the path ends
in `.yml` or `.yaml`. -/
def hasYamlExt (path : String) : Bool :=
  List.isPrefixOf ['l', 'm', 'y', '.'] path.data.reverse
    || List.isPrefixOf ['l', 'm', 'a', 'y', '.'] path.data.reverse

/-- `KubernetesSyncOptions` as used by the sync reconciler: the optional
secret encryption key and the sync repo coordinates. -/
structure KubernetesSyncOptions where
  secretKey : Option String := none
  repoOwner : String := ""
  repoRepo : String := ""
deriving DecidableEq, Repr

/-- The candidate paths tried by `uniqueSpecFile`: first the basename with
`.json`, then the basename, an underscore and the i-th random suffix
(`guid().split("-")[0]` draws, modelled as the stream `suffixes`). -/
def uniqueCandidate (root : String) (suffixes : Nat → String) : Nat → String
  | 0 => root ++ ".json"
  | i + 1 => root ++ "_" ++ suffixes i ++ ".json"

/-- The retry loop of `uniqueSpecFile`, with explicit fuel standing for
the (almost surely finite) number of random draws; `none` means the fuel
ran out, which is an artifact of the model, not a program behavior. -/
def uniqueSpecFileGo (p : SyncProject) (root : String) (suffixes : Nat → String) :
    Nat → Nat → Option String
  | _, 0 => none
  | i, fuel + 1 =>
    let cand := uniqueCandidate root suffixes i
    if (getFile p cand).isSome then uniqueSpecFileGo p root suffixes (i + 1) fuel
    else some cand

/-- `uniqueSpecFile(resource, p)` of `lib/sync/application.ts`: the
ordering-prefixed basename plus `.json`, retried with random suffixes
while the path already exists in the project. -/
def uniqueSpecFile (resource : K8sObject) (p : SyncProject) (suffixes : Nat → String)
    (fuel : Nat) : Option String :=
  uniqueSpecFileGo p (kubernetesSpecFileBasename resource) suffixes 0 fuel

/-- `resourceUpserted(resource, p, fs, opts)` of `lib/sync/application.ts`:
serialize the resource in the matched file's format (YAML when its path
ends in `.yml`/`.yaml`, else JSON) with the caller's secret key; then
overwrite the matched file, or add a new uniquely named file. -/
def resourceUpserted (S : Serializers) (opts : KubernetesSyncOptions)
    (suffixes : Nat → String) (fuel : Nat) (resource : K8sObject) (p : SyncProject)
    (fs : Option ProjectFileSpec) : Option SyncProject :=
  let format : SpecFormat :=
    match fs with
    | some e => if hasYamlExt e.file.path then .yaml else .json
    | none => .json
  let resourceString :=
    kubernetesSpecStringify S { format := format, secretKey := opts.secretKey } resource
  match fs with
  | some e => some (setContent p e.file.path resourceString)
  | none =>
    (uniqueSpecFile resource p suffixes fuel).map (fun specPath => addFile p specPath resourceString)

/-- `resourceDeleted(resource, p, fs)` of `lib/sync/application.ts`:
remove the matched file, or do nothing. -/
def resourceDeleted (p : SyncProject) (fs : Option ProjectFileSpec) : SyncProject :=
  match fs with
  | some e => deleteFile p e.file.path
  | none => p

/-- The scan phase of `syncResources`: parse every glob-matching file of
the project; a file that fails to parse is logged and skipped and
contributes no pair. -/
def scanSpecs (S : Serializers) (p : SyncProject) : List ProjectFileSpec :=
  p.files.filterMap (fun f =>
    match S.parse f.content with
    | .ok spec => some ⟨f, spec⟩
    | .error _ => none)

/-- `SyncAction` of `lib/sync/application.ts`. -/
inductive SyncAction
  | upsert
  | delete
deriving DecidableEq, Repr

/-- The match-and-apply loop of `syncResources`: for each resource in
caller order, find its match among the specs scanned at the start of the
pass and apply the upsert or delete action to the working copy. -/
def applyResources (S : Serializers) (action : SyncAction) (opts : KubernetesSyncOptions)
    (suffixes : Nat → String) (fuel : Nat) (specs : List ProjectFileSpec) :
    List K8sObject → SyncProject → Option SyncProject
  | [], p => some p
  | resource :: rest, p =>
    let fs := matchSpec resource specs
    match action with
    | .upsert =>
      match resourceUpserted S opts suffixes fuel resource p fs with
      | some p' => applyResources S action opts suffixes fuel specs rest p'
      | none => none
    | .delete => applyResources S action opts suffixes fuel specs rest (resourceDeleted p fs)

/-- The application descriptor (`KubernetesDelete` of
`lib/kubernetes/request.ts`): the fields the sync pass uses. -/
structure KubernetesDelete where
  name : String
  ns : String
deriving DecidableEq, Repr

/-- Modelled from the spec: `appName` of `lib/kubernetes/request.ts` (not
under `src/`), the `"namespace/name"` slug of an application. -/
def appName (app : KubernetesDelete) : String :=
  app.ns ++ "/" ++ app.name

/-- Modelled from the spec: `commitTag` of `lib/sync/tag.ts` (not under
`src/`), the machine-parseable sync-commit tag. -/
def commitTag : String :=
  "[atomist:sync-commit=@atomist/sdm-pack-k8s]"

/-- The state of the git working copy across a sync pass: the current
files, the snapshot at the last commit (the working copy is clean when
they agree), the commit messages so far and the number of pushes. -/
structure GitState where
  project : SyncProject
  committed : SyncProject
  commits : List String
  pushes : Nat
deriving DecidableEq, Repr

/-- `syncProject.isClean()`: no pending changes since the last commit. -/
def isClean (st : GitState) : Bool :=
  decide (st.project = st.committed)

/-- The outcome of a sync pass: normal return, a raised error, or fuel
exhaustion of the random-suffix loop (a model artifact only). -/
inductive SyncOutcome
  | ok (st : GitState)
  | err (msg : String)
  | fuelOut
deriving DecidableEq, Repr

/-- `syncResources(app, resources, action, opts)` of
`lib/sync/application.ts`, applied to a working copy: scan the spec
files, match and apply each resource, then commit and push when the
working copy is dirty; a commit or push failure (modelled by the
`commitErr`/`pushErr` collaborator outcomes) is wrapped with context and
re-raised. -/
def syncResources (S : Serializers) (app : KubernetesDelete) (resources : List K8sObject)
    (action : SyncAction) (opts : KubernetesSyncOptions) (suffixes : Nat → String)
    (fuel : Nat) (commitErr pushErr : Option String) (st : GitState) : SyncOutcome :=
  let specs := scanSpecs S st.project
  let syncVerb :=
    match action with
    | .delete => "Delete"
    | .upsert => "Update"
  match applyResources S action opts suffixes fuel specs resources st.project with
  | none => .fuelOut
  | some p' =>
    let st' := { st with project := p' }
    if isClean st' then .ok st'
    else
      let msg := syncVerb ++ " specs for " ++ appName app ++ "\n\n[atomist:generated] "
        ++ commitTag ++ "\n"
      match commitErr with
      | some e => .err ("Failed to commit and push resource changes to sync repo: " ++ e)
      | none =>
        match pushErr with
        | some e => .err ("Failed to commit and push resource changes to sync repo: " ++ e)
        | none =>
          .ok { st' with
                committed := p',
                commits := st'.commits ++ [msg],
                pushes := st'.pushes + 1 }

/-- The result of `syncApplication`: either it returned without loading
the sync repository project, or it loaded the project and delegated to
`syncResources` (whose raised errors it wraps with added context). -/
inductive SyncApplicationResult
  | skipped
  | synced (outcome : SyncOutcome)
deriving DecidableEq, Repr

/-- `syncApplication(app, resources, action)` of `lib/sync/application.ts`:
return immediately when the configured sync options are not valid
(`validSyncOptions`, modelled by the `optsValid` outcome) or when the
resource list is empty; otherwise load the sync repo project and run
`syncResources` on it, wrapping any raised error. -/
def syncApplication (S : Serializers) (optsValid : Bool) (app : KubernetesDelete)
    (resources : List K8sObject) (action : SyncAction) (opts : KubernetesSyncOptions)
    (suffixes : Nat → String) (fuel : Nat) (commitErr pushErr : Option String)
    (st : GitState) : SyncApplicationResult :=
  if !optsValid then .skipped
  else if resources.length < 1 then .skipped
  else
    .synced
      (match syncResources S app resources action opts suffixes fuel commitErr pushErr st with
       | .err m =>
         .err ("Failed to perform sync resources from " ++ appName app ++ " to sync repo "
           ++ opts.repoOwner ++ "/" ++ opts.repoRepo ++ ": " ++ m)
       | o => o)

/-- Decidable equality of `Except` results, used to evaluate the model on
concrete inputs. -/
instance {e a : Type} [DecidableEq e] [DecidableEq a] : DecidableEq (Except e a) := fun x y =>
  match x, y with
  | .ok u, .ok v =>
    if h : u = v then isTrue (by rw [h])
    else isFalse (fun hc => h (Except.ok.injEq u v ▸ congrArg id hc |> fun hh => by
      cases hc; rfl))
  | .error u, .error v =>
    if h : u = v then isTrue (by rw [h])
    else isFalse (fun hc => h (by cases hc; rfl))
  | .ok _, .error _ => isFalse (fun hc => Except.noConfusion hc)
  | .error _, .ok _ => isFalse (fun hc => Except.noConfusion hc)

/-- C1: for the enumerated resources, `specUriPath` returns the literal
paths: a core-group namespaced Service under `patch` yields
`v1/namespaces/fugazi/services/repeater`, an `extensions/v1beta1` Ingress
under `delete` yields the irregular-plural path
`extensions/v1beta1/namespaces/fugazi/ingresses/repeater`; in general the
path is prefix, optional namespace segment, plural kind and name. -/
theorem specUriPath_claim :
    specUriPath ⟨some ("v1"), some ("Service"), ⟨some ("repeater"), some ("fugazi")⟩⟩
        K8sAction.patch = .ok ("v1/namespaces/fugazi/services/repeater") ∧
    specUriPath ⟨some ("extensions/v1beta1"), some ("Ingress"),
        ⟨some ("repeater"), some ("fugazi")⟩⟩ K8sAction.delete
      = .ok ("extensions/v1beta1/namespaces/fugazi/ingresses/repeater") ∧
    (∀ (av k n : String) (nsv : Option String) (a : K8sAction),
      (uriOpts a k).appendName = true →
      specUriPath ⟨some av, some k, ⟨some n, nsv⟩⟩ a
        = .ok (av ++ "/"
            ++ (match nsv with
                | some m => "namespaces/" ++ m ++ "/"
                | none => "")
            ++ pluralKind k ++ "/" ++ n)) := by
  refine ⟨by decide, by decide, ?_⟩
  intro av k n nsv a h
  cases nsv <;> simp [specUriPath, h]

/-- Witness for C1's general path formula at a concrete Deployment. -/
theorem specUriPath_claim_witness :
    specUriPath ⟨some ("apps/v1"), some ("Deployment"),
        ⟨some ("repeater"), some ("fugazi")⟩⟩ K8sAction.read
      = .ok ("apps/v1/namespaces/fugazi/deployments/repeater") :=
  (specUriPath_claim.2.2 "apps/v1" "Deployment" "repeater" (some ("fugazi"))
      K8sAction.read rfl).trans (by decide)

/-- C2: `isClusterResource` is true for every cluster kind and action;
for status kinds exactly for patch, read and replace; for
`ComponentStatus` exactly for list and read; and false for every other
kind and every action. -/
theorem isClusterResource_claim :
    (∀ (a : K8sAction), ∀ k ∈ clusterResourceKinds, isClusterResource a k = true) ∧
    (∀ (a : K8sAction), ∀ k ∈ clusterStatusKinds,
      (isClusterResource a k = true ↔
        (a = K8sAction.patch ∨ a = K8sAction.read ∨ a = K8sAction.replace))) ∧
    (∀ (a : K8sAction),
      (isClusterResource a ("ComponentStatus") = true ↔
        (a = K8sAction.list ∨ a = K8sAction.read))) ∧
    (∀ (a : K8sAction) (k : String), k ∉ clusterResourceKinds → k ∉ clusterStatusKinds →
      k ≠ "ComponentStatus" → isClusterResource a k = false) := by
  refine ⟨?_, ?_, ?_, ?_⟩
  · intro a k hk
    unfold isClusterResource
    rw [if_pos hk]
  · intro a k hk
    have h1 : k ∉ clusterResourceKinds := by fin_cases hk <;> decide
    unfold isClusterResource
    rw [if_neg h1, if_pos hk]
    cases a <;> simp
  · intro a
    unfold isClusterResource
    rw [if_neg (by decide), if_neg (by decide), if_pos rfl]
    cases a <;> simp
  · intro a k h1 h2 h3
    unfold isClusterResource
    rw [if_neg h1, if_neg h2, if_neg h3]

/-- Witness for C2 at a status kind under patch and a namespaced kind. -/
theorem isClusterResource_claim_witness :
    isClusterResource K8sAction.patch ("NodeStatus") = true ∧
    isClusterResource K8sAction.create ("ConfigMap") = false :=
  ⟨(isClusterResource_claim.2.1 K8sAction.patch ("NodeStatus") (by decide)).mpr
      (Or.inl rfl),
   isClusterResource_claim.2.2.2 K8sAction.create ("ConfigMap") (by decide) (by decide)
      (by decide)⟩

/-- C6: `specUriPath` fails with the `Spec does not contain kind:`
validation error whenever the kind is missing, for any action; it fails
with the `Spec does not contain name:` validation error when the name is
missing and the action appends a name (delete, patch, read, replace);
for the collection actions create and list a missing name is not an
error. -/
theorem specUriPath_errors_claim :
    (∀ (spec : K8sObject) (a : K8sAction), spec.kind = none →
      specUriPath spec a = .error ("Spec does not contain kind: " ++ describeK8s spec)) ∧
    (∀ (spec : K8sObject) (a : K8sAction), spec.kind.isSome = true →
      (a = K8sAction.delete ∨ a = K8sAction.patch ∨ a = K8sAction.read ∨
        a = K8sAction.replace) →
      spec.metadata.name = none →
      specUriPath spec a = .error ("Spec does not contain name: " ++ describeK8s spec)) ∧
    (∀ (spec : K8sObject) (a : K8sAction), spec.kind.isSome = true →
      (a = K8sAction.create ∨ a = K8sAction.list) →
      (specUriPath spec a).isOk = true) := by
  refine ⟨?_, ?_, ?_⟩
  · intro spec a h
    unfold specUriPath
    rw [h]
  · intro spec a hk ha hn
    obtain ⟨k, hk⟩ := Option.isSome_iff_exists.mp hk
    unfold specUriPath
    rw [hk]
    rcases ha with rfl | rfl | rfl | rfl <;> simp [uriOpts, hn]
  · intro spec a hk ha
    obtain ⟨k, hk⟩ := Option.isSome_iff_exists.mp hk
    unfold specUriPath
    rw [hk]
    rcases ha with rfl | rfl <;> simp [uriOpts, Except.isOk, Except.toBool]

/-- Witness for C6: the name-missing error at the test's Service spec
under read, and the kind-missing error under create. -/
theorem specUriPath_errors_claim_witness :
    specUriPath ⟨some ("v1"), some ("Service"), ⟨none, some ("fugazi")⟩⟩ K8sAction.read
      = .error ("Spec does not contain name: "
          ++ describeK8s ⟨some ("v1"), some ("Service"), ⟨none, some ("fugazi")⟩⟩) :=
  specUriPath_errors_claim.2.1 ⟨some ("v1"), some ("Service"), ⟨none, some ("fugazi")⟩⟩
    K8sAction.read rfl (Or.inr (Or.inr (Or.inl rfl))) rfl

/-- C7: `kubernetesSpecFileBasename` is the lowercased
`{NN}_{namespace}_{name}_{kebab-kind}` with the namespace segment and its
separator present exactly when the namespace is set (to a nonempty
string), the kind kebab-cased with a hyphen at each lowercase-to-uppercase
boundary, and NN the two-digit class priority of the claim's table. -/
theorem kubernetesSpecFileBasename_claim :
    (∀ (r : K8sObject) (k n : String), r.kind = some k → r.metadata.name = some n →
      kubernetesSpecFileBasename r
        = lowerString (classPriority k ++ "_"
            ++ (match r.metadata.ns with
                | some m => if m = "" then "" else m ++ "_"
                | none => "")
            ++ n ++ "_" ++ kindKebab k)) ∧
    (classPriority ("Namespace") = "10" ∧ classPriority ("PersistentVolume") = "15" ∧
      classPriority ("StorageClass") = "15" ∧ classPriority ("ServiceAccount") = "20" ∧
      classPriority ("ClusterRole") = "25" ∧ classPriority ("Role") = "25" ∧
      classPriority ("ClusterRoleBinding") = "30" ∧ classPriority ("RoleBinding") = "30" ∧
      classPriority ("NetworkPolicy") = "40" ∧ classPriority ("PersistentVolumeClaim") = "40" ∧
      classPriority ("PodSecurityPolicy") = "40" ∧ classPriority ("Service") = "50" ∧
      classPriority ("ConfigMap") = "60" ∧ classPriority ("Secret") = "60" ∧
      classPriority ("CronJob") = "70" ∧ classPriority ("DaemonSet") = "70" ∧
      classPriority ("Deployment") = "70" ∧ classPriority ("StatefulSet") = "70" ∧
      classPriority ("HorizontalPodAutoscaler") = "80" ∧ classPriority ("Ingress") = "80" ∧
      classPriority ("PodDisruptionBudget") = "80") ∧
    (∀ k : String,
      k ∉ ["Namespace", "PersistentVolume", "StorageClass", "ServiceAccount",
           "ClusterRole", "Role", "ClusterRoleBinding", "RoleBinding", "NetworkPolicy",
           "PersistentVolumeClaim", "PodSecurityPolicy", "Service", "ConfigMap",
           "Secret", "CronJob", "DaemonSet", "Deployment", "StatefulSet",
           "HorizontalPodAutoscaler", "Ingress", "PodDisruptionBudget"] →
      classPriority k = "90") ∧
    (kindKebab ("RoleBinding") = "Role-Binding" ∧
      kindKebab ("HorizontalPodAutoscaler") = "Horizontal-Pod-Autoscaler" ∧
      kindKebab ("Deployment") = "Deployment") := by
  refine ⟨?_, by decide, ?_, by decide⟩
  · intro r k n hk hn
    unfold kubernetesSpecFileBasename
    rw [hk, hn]
    rfl
  · intro k hmem
    simp only [List.mem_cons, List.not_mem_nil, or_false, not_or] at hmem
    obtain ⟨h1, h2, h3, h4, h5, h6, h7, h8, h9, h10, h11, h12, h13, h14, h15, h16, h17,
      h18, h19, h20, h21⟩ := hmem
    unfold classPriority
    split
    all_goals simp_all

/-- Witness for C7 at the namespaced test Deployment and an unlisted
kind. -/
theorem kubernetesSpecFileBasename_claim_witness :
    kubernetesSpecFileBasename
        ⟨some ("apps/v1"), some ("Deployment"), ⟨some ("tonina"), some ("black-angel")⟩⟩
      = lowerString (classPriority ("Deployment") ++ "_" ++ ("black-angel" ++ "_")
          ++ "tonina" ++ "_" ++ kindKebab ("Deployment")) ∧
    classPriority ("Pod") = "90" :=
  ⟨(kubernetesSpecFileBasename_claim.1
      ⟨some ("apps/v1"), some ("Deployment"), ⟨some ("tonina"), some ("black-angel")⟩⟩
      "Deployment" "tonina" rfl rfl).trans (by decide),
   kubernetesSpecFileBasename_claim.2.2.1 "Pod" (by decide)⟩

/-- A successful `List.find?` splits the list at the first element
satisfying the predicate. -/
theorem find_first_split {α : Type} (q : α → Bool) :
    ∀ (l : List α) (x : α), l.find? q = some x →
      q x = true ∧ ∃ l1 l2, l = l1 ++ x :: l2 ∧ ∀ y ∈ l1, q y = false := by
  intro l
  induction l with
  | nil => intro x hx; simp [List.find?] at hx
  | cons a as ih =>
    intro x hx
    by_cases ha : q a = true
    · rw [List.find?_cons_of_pos _ ha] at hx
      cases hx
      exact ⟨ha, [], as, rfl, by simp⟩
    · have ha' : q a = false := by simpa using ha
      rw [List.find?_cons_of_neg _ (by simp [ha'])] at hx
      obtain ⟨hq, l1, l2, heq, hprev⟩ := ih x hx
      refine ⟨hq, a :: l1, l2, by rw [heq]; rfl, ?_⟩
      intro y hy
      rcases List.mem_cons.mp hy with rfl | hy
      · exact ha'
      · exact hprev y hy

/-- C3: `matchSpec` returns the first pair whose spec agrees on kind,
name and namespace (each possibly undefined), `none` when no pair does;
the apiVersion of the probe and of the entries plays no role in the
match. -/
theorem matchSpec_claim :
    (∀ (s : K8sObject) (l : List ProjectFileSpec),
      (matchSpec s l = none ↔ ∀ fs ∈ l, specMatches s fs = false)) ∧
    (∀ (s : K8sObject) (l : List ProjectFileSpec) (e : ProjectFileSpec),
      matchSpec s l = some e → specMatches s e = true ∧
        ∃ l1 l2, l = l1 ++ e :: l2 ∧ ∀ x ∈ l1, specMatches s x = false) ∧
    (∀ (s : K8sObject) (fs : ProjectFileSpec),
      (specMatches s fs = true ↔ (s.kind = fs.spec.kind ∧
        s.metadata.name = fs.spec.metadata.name ∧ s.metadata.ns = fs.spec.metadata.ns))) ∧
    (∀ (s : K8sObject) (l : List ProjectFileSpec) (v : Option String),
      matchSpec { s with apiVersion := v } l = matchSpec s l) ∧
    (∀ (s : K8sObject) (l : List ProjectFileSpec) (v : Option String),
      matchSpec s (l.map (fun fs => { fs with spec := { fs.spec with apiVersion := v } }))
        = (matchSpec s l).map (fun fs => { fs with spec := { fs.spec with apiVersion := v } })) := by
  refine ⟨?_, ?_, ?_, ?_, ?_⟩
  · intro s l
    simp [matchSpec, List.find?_eq_none]
  · intro s l e h
    exact find_first_split (specMatches s) l e h
  · intro s fs
    simp [specMatches, and_assoc]
  · intro s l v
    rfl
  · intro s l v
    induction l with
    | nil => rfl
    | cons a as ih =>
      have hsm : specMatches s { a with spec := { a.spec with apiVersion := v } }
          = specMatches s a := rfl
      by_cases ha : specMatches s a = true
      · simp [matchSpec, List.find?_cons_of_pos, ha, hsm]
      · have ha' : specMatches s a = false := by simpa using ha
        simp only [List.map_cons, matchSpec] at ih ⊢
        rw [List.find?_cons_of_neg _ (by simp [hsm, ha']),
          List.find?_cons_of_neg _ (by simp [ha'])]
        exact ih

/-- Witness for C3: on the test's list of near-matches (differing kind,
name, namespace, or only apiVersion), the probe matches nothing when all
three key fields never agree at once. -/
theorem matchSpec_claim_witness :
    matchSpec ⟨some ("apps/v1"), some ("Deployment"), ⟨some ("lyle"), some ("lovett")⟩⟩
        [⟨⟨"svc.json", "{}"⟩, ⟨some ("v1"), some ("Service"), ⟨some ("lyle"), some ("lovett")⟩⟩⟩,
         ⟨⟨"jondep.json", "{}"⟩, ⟨some ("apps/v1"), some ("Deployment"), ⟨some ("jon"), some ("lovett")⟩⟩⟩,
         ⟨⟨"dep.json", "{}"⟩, ⟨some ("apps/v1"), some ("Deployment"), ⟨some ("lyle"), some ("alzado")⟩⟩⟩]
      = none :=
  (matchSpec_claim.1 ⟨some ("apps/v1"), some ("Deployment"), ⟨some ("lyle"), some ("lovett")⟩⟩
      _).mpr (by decide)

/-- Any path produced by the `uniqueSpecFile` retry loop is free in the
project and is one of the candidate paths. -/
theorem uniqueSpecFileGo_spec (p : SyncProject) (root : String) (suffixes : Nat → String) :
    ∀ (fuel i : Nat) (path : String), uniqueSpecFileGo p root suffixes i fuel = some path →
      getFile p path = none ∧ ∃ j, path = uniqueCandidate root suffixes j := by
  intro fuel
  induction fuel with
  | zero => intro i path h; simp [uniqueSpecFileGo] at h
  | succ fuel ih =>
    intro i path h
    unfold uniqueSpecFileGo at h
    by_cases hc : (getFile p (uniqueCandidate root suffixes i)).isSome = true
    · rw [if_pos hc] at h
      exact ih (i + 1) path h
    · rw [if_neg hc] at h
      cases h
      exact ⟨Option.not_isSome_iff_eq_none.mp hc, i, rfl⟩

/-- C4: on an upsert, a matched file is overwritten with the resource
serialized in YAML exactly when the matched path ends in `.yml` or
`.yaml` and in JSON otherwise; an unmatched resource is added at a new
path that is the basename plus `.json` when free, else the basename, an
underscore and a random suffix, retried until the path does not already
exist — so the returned new path never collides with an existing file. -/
theorem resourceUpserted_claim :
    (∀ (S : Serializers) (opts : KubernetesSyncOptions) (suffixes : Nat → String)
      (fuel : Nat) (r : K8sObject) (p : SyncProject) (e : ProjectFileSpec),
      resourceUpserted S opts suffixes fuel r p (some e)
        = some (setContent p e.file.path
            (kubernetesSpecStringify S
              { format := if hasYamlExt e.file.path then .yaml else .json,
                secretKey := opts.secretKey } r))) ∧
    (∀ (S : Serializers) (opts : KubernetesSyncOptions) (suffixes : Nat → String)
      (fuel : Nat) (r : K8sObject) (p : SyncProject),
      resourceUpserted S opts suffixes fuel r p none
        = (uniqueSpecFile r p suffixes fuel).map (fun specPath =>
            addFile p specPath
              (kubernetesSpecStringify S
                { format := .json, secretKey := opts.secretKey } r))) ∧
    (∀ (r : K8sObject) (p : SyncProject) (suffixes : Nat → String) (fuel : Nat)
      (path : String), uniqueSpecFile r p suffixes fuel = some path →
      getFile p path = none ∧
      (path = kubernetesSpecFileBasename r ++ ".json" ∨
        ∃ i, path = kubernetesSpecFileBasename r ++ "_" ++ suffixes i ++ ".json") ∧
      (getFile p (kubernetesSpecFileBasename r ++ ".json") = none →
        path = kubernetesSpecFileBasename r ++ ".json")) := by
  refine ⟨fun _ _ _ _ _ _ _ => rfl, fun _ _ _ _ _ _ => rfl, ?_⟩
  intro r p suffixes fuel path h
  obtain ⟨hfree, j, hj⟩ := uniqueSpecFileGo_spec p (kubernetesSpecFileBasename r) suffixes fuel 0 path h
  refine ⟨hfree, ?_, ?_⟩
  · cases j with
    | zero => exact Or.inl hj
    | succ i => exact Or.inr ⟨i, hj⟩
  · intro hbase
    cases fuel with
    | zero => simp [uniqueSpecFile, uniqueSpecFileGo] at h
    | succ fuel =>
      unfold uniqueSpecFile uniqueSpecFileGo at h
      rw [if_neg (by simp [uniqueCandidate, hbase])] at h
      cases h
      rfl

/-- Witness for C4's uniqueness algorithm: in a project already holding
the basename path, the returned path gets a suffix and is free. -/
theorem resourceUpserted_claim_witness :
    getFile ⟨[⟨"70_black-angel_tonina_deployment.json", "{}"⟩]⟩
        ("70_black-angel_tonina_deployment_abcd1234.json") = none ∧
    (("70_black-angel_tonina_deployment_abcd1234.json" : String)
        = kubernetesSpecFileBasename
            ⟨some ("apps/v1"), some ("Deployment"), ⟨some ("tonina"), some ("black-angel")⟩⟩
          ++ ".json" ∨
      ∃ _ : Nat, ("70_black-angel_tonina_deployment_abcd1234.json" : String)
        = kubernetesSpecFileBasename
            ⟨some ("apps/v1"), some ("Deployment"), ⟨some ("tonina"), some ("black-angel")⟩⟩
          ++ "_" ++ "abcd1234" ++ ".json") :=
  ⟨((resourceUpserted_claim.2.2
      ⟨some ("apps/v1"), some ("Deployment"), ⟨some ("tonina"), some ("black-angel")⟩⟩
      ⟨[⟨"70_black-angel_tonina_deployment.json", "{}"⟩]⟩ (fun _ => "abcd1234") 2
      ("70_black-angel_tonina_deployment_abcd1234.json") (by decide)).1),
   ((resourceUpserted_claim.2.2
      ⟨some ("apps/v1"), some ("Deployment"), ⟨some ("tonina"), some ("black-angel")⟩⟩
      ⟨[⟨"70_black-angel_tonina_deployment.json", "{}"⟩]⟩ (fun _ => "abcd1234") 2
      ("70_black-angel_tonina_deployment_abcd1234.json") (by decide)).2.1)⟩

/-- C5: at the end of a sync pass, a clean working copy means no commit
and no push; a dirty one is committed exactly once with the message
`{Update|Delete} specs for {namespace}/{name}` followed by a blank line
and the generated-marker and sync-commit tags (verb `Delete` exactly for
the delete action) and then pushed; a commit or push failure is wrapped
with added context and re-raised. -/
theorem syncResources_commit_claim (S : Serializers) (app : KubernetesDelete)
    (resources : List K8sObject) (action : SyncAction) (opts : KubernetesSyncOptions)
    (suffixes : Nat → String) (fuel : Nat) (commitErr pushErr : Option String)
    (st : GitState) (p' : SyncProject)
    (happ : applyResources S action opts suffixes fuel (scanSpecs S st.project)
      resources st.project = some p') :
    (p' = st.committed →
      syncResources S app resources action opts suffixes fuel commitErr pushErr st
        = .ok { st with project := p' }) ∧
    (p' ≠ st.committed → commitErr = none → pushErr = none →
      syncResources S app resources action opts suffixes fuel commitErr pushErr st
        = .ok { project := p', committed := p',
                commits := st.commits
                  ++ [(if action = SyncAction.delete then "Delete" else "Update")
                      ++ " specs for " ++ appName app ++ "\n\n[atomist:generated] "
                      ++ commitTag ++ "\n"],
                pushes := st.pushes + 1 }) ∧
    (∀ e, p' ≠ st.committed → commitErr = some e →
      syncResources S app resources action opts suffixes fuel commitErr pushErr st
        = .err ("Failed to commit and push resource changes to sync repo: " ++ e)) ∧
    (∀ e, p' ≠ st.committed → commitErr = none → pushErr = some e →
      syncResources S app resources action opts suffixes fuel commitErr pushErr st
        = .err ("Failed to commit and push resource changes to sync repo: " ++ e)) := by
  refine ⟨?_, ?_, ?_, ?_⟩
  · intro hclean
    simp [syncResources, happ, isClean, hclean]
  · intro hdirty hce hpe
    subst hce hpe
    cases action <;> simp [syncResources, happ, isClean, hdirty]
  · intro e hdirty hce
    subst hce
    cases action <;> simp [syncResources, happ, isClean, hdirty]
  · intro e hdirty hce hpe
    subst hce hpe
    cases action <;> simp [syncResources, happ, isClean, hdirty]

/-- Witness for C5: an empty resource list over a dirty working copy
commits once with the Update message and pushes. -/
theorem syncResources_commit_claim_witness :
    syncResources
        { jsonDump := fun _ => "j", yamlDump := fun _ => "y",
          encrypt := fun r _ => r, parse := fun _ => .error ("nope") }
        ⟨"tonina", "black-angel"⟩ [] SyncAction.upsert {} (fun _ => "s") 1 none none
        ⟨⟨[⟨"a.json", "x"⟩]⟩, ⟨[]⟩, [], 0⟩
      = .ok ⟨⟨[⟨"a.json", "x"⟩]⟩, ⟨[⟨"a.json", "x"⟩]⟩,
          ["Update specs for black-angel/tonina\n\n[atomist:generated] "
            ++ commitTag ++ "\n"], 1⟩ :=
  ((syncResources_commit_claim
      { jsonDump := fun _ => "j", yamlDump := fun _ => "y",
        encrypt := fun r _ => r, parse := fun _ => .error ("nope") }
      ⟨"tonina", "black-angel"⟩ [] SyncAction.upsert {} (fun _ => "s") 1 none none
      ⟨⟨[⟨"a.json", "x"⟩]⟩, ⟨[]⟩, [], 0⟩ ⟨[⟨"a.json", "x"⟩]⟩ rfl).2.1
    (by decide) rfl rfl).trans (by decide)

/-- C9: a repository file that fails to parse as a spec contributes no
file-and-spec pair to the scan (the scan of the project equals the scan
without it), and a sync pass never raises an error other than a wrapped
commit-or-push failure, so a parse failure never aborts the pass. -/
theorem parse_skip_claim :
    (∀ (S : Serializers) (l1 l2 : List SpecFile) (f : SpecFile) (e : String),
      S.parse f.content = .error e →
      scanSpecs S ⟨l1 ++ f :: l2⟩ = scanSpecs S ⟨l1 ++ l2⟩) ∧
    (∀ (S : Serializers) (app : KubernetesDelete) (resources : List K8sObject)
      (action : SyncAction) (opts : KubernetesSyncOptions) (suffixes : Nat → String)
      (fuel : Nat) (commitErr pushErr : Option String) (st : GitState) (m : String),
      syncResources S app resources action opts suffixes fuel commitErr pushErr st = .err m →
      ∃ s, m = "Failed to commit and push resource changes to sync repo: " ++ s) := by
  constructor
  · intro S l1 l2 f e h
    simp [scanSpecs, List.filterMap_append, List.filterMap_cons, h]
  · intro S app resources action opts suffixes fuel commitErr pushErr st m h
    rcases happ : applyResources S action opts suffixes fuel (scanSpecs S st.project)
        resources st.project with _ | p'
    · simp [syncResources, happ] at h
    · simp only [syncResources, happ] at h
      by_cases hclean : isClean { st with project := p' } = true
      · rw [if_pos hclean] at h; exact absurd h (by simp)
      · rw [if_neg hclean] at h
        rcases commitErr with _ | e1
        · rcases pushErr with _ | e2
          · exact absurd h (by simp)
          · refine ⟨e2, ?_⟩
            cases h
            rfl
        · refine ⟨e1, ?_⟩
          cases h
          rfl

/-- Witness for C9: scanning a project whose middle file does not parse
yields the same pairs as without it. -/
theorem parse_skip_claim_witness :
    scanSpecs
        { jsonDump := fun _ => "j", yamlDump := fun _ => "y", encrypt := fun r _ => r,
          parse := fun s => if s = "good" then .ok ⟨none, some ("Service"), ⟨none, none⟩⟩
            else .error ("bad spec") }
        ⟨[⟨"a.json", "good"⟩] ++ ⟨"b.json", "junk"⟩ :: [⟨"c.json", "good"⟩]⟩
      = scanSpecs
          { jsonDump := fun _ => "j", yamlDump := fun _ => "y", encrypt := fun r _ => r,
            parse := fun s => if s = "good" then .ok ⟨none, some ("Service"), ⟨none, none⟩⟩
              else .error ("bad spec") }
          ⟨[⟨"a.json", "good"⟩] ++ [⟨"c.json", "good"⟩]⟩ :=
  parse_skip_claim.1
    { jsonDump := fun _ => "j", yamlDump := fun _ => "y", encrypt := fun r _ => r,
      parse := fun s => if s = "good" then .ok ⟨none, some ("Service"), ⟨none, none⟩⟩
        else .error ("bad spec") }
    [⟨"a.json", "good"⟩] [⟨"c.json", "good"⟩] ⟨"b.json", "junk"⟩ "bad spec" (by decide)

/-- C10: when the configured sync options are not valid or the resource
list is empty, `syncApplication` returns successfully without loading the
sync repository project, so no file is touched and nothing is committed
or pushed. -/
theorem syncApplication_skip_claim (S : Serializers) (optsValid : Bool)
    (app : KubernetesDelete) (resources : List K8sObject) (action : SyncAction)
    (opts : KubernetesSyncOptions) (suffixes : Nat → String) (fuel : Nat)
    (commitErr pushErr : Option String) (st : GitState)
    (h : optsValid = false ∨ resources = []) :
    syncApplication S optsValid app resources action opts suffixes fuel
      commitErr pushErr st = .skipped := by
  rcases h with rfl | rfl
  · rfl
  · cases optsValid <;> rfl

/-- Witness for C10 with valid options and an empty resource list. -/
theorem syncApplication_skip_claim_witness :
    syncApplication
        { jsonDump := fun _ => "j", yamlDump := fun _ => "y",
          encrypt := fun r _ => r, parse := fun _ => .error ("nope") }
        true ⟨"tonina", "black-angel"⟩ [] SyncAction.upsert {} (fun _ => "s") 1 none none
        ⟨⟨[]⟩, ⟨[]⟩, [], 0⟩ = .skipped :=
  syncApplication_skip_claim
    { jsonDump := fun _ => "j", yamlDump := fun _ => "y",
      encrypt := fun r _ => r, parse := fun _ => .error ("nope") }
    true ⟨"tonina", "black-angel"⟩ [] SyncAction.upsert {} (fun _ => "s") 1 none none
    ⟨⟨[]⟩, ⟨[]⟩, [], 0⟩ (Or.inr rfl)

/-- The identity key of a parsed file content: the spec key of the
parse result, or `none` when the content does not parse. -/
def parseKey (S : Serializers) (content : String) :
    Option (Option String × Option String × Option String) :=
  match S.parse content with
  | .ok s => some (specKey s)
  | .error _ => none

/-- The first file of the project whose content parses to the given
spec key. -/
def firstKeyFile (S : Serializers) (p : SyncProject)
    (k : Option String × Option String × Option String) : Option SpecFile :=
  p.files.find? (fun f => decide (parseKey S f.content = some k))

/-- The serialization format chosen for a file path: YAML when the path
ends in `.yml`/`.yaml`, else JSON. -/
def fmtForPath (path : String) : SpecFormat :=
  if hasYamlExt path then .yaml else .json

/-- The external serializers round-trip on a resource: parsing either
serialization of it yields the (possibly encrypted) object back, and
encryption preserves the identity key. -/
def RoundTrip (S : Serializers) (sk : Option String) (r : K8sObject) : Prop :=
  S.parse (kubernetesSpecStringify S { format := .json, secretKey := sk } r)
      = .ok (encryptIfSecret S sk r) ∧
  S.parse (kubernetesSpecStringify S { format := .yaml, secretKey := sk } r)
      = .ok (encryptIfSecret S sk r) ∧
  specKey (encryptIfSecret S sk r) = specKey r

/-- The resource's serialization is already stored in the first file of
the project carrying the resource's key, in that file's format. -/
def GoodFor (S : Serializers) (sk : Option String) (p : SyncProject) (r : K8sObject) : Prop :=
  ∃ f, firstKeyFile S p (specKey r) = some f ∧
    f.content = kubernetesSpecStringify S { format := fmtForPath f.path, secretKey := sk } r

/-- The invariant tying the fixed scan result to the evolving project:
when the resource matches a scanned entry, the first file of the project
carrying its key sits at that entry's path; when it matches nothing, no
file of the project carries its key. -/
def TodoOK (S : Serializers) (specs : List ProjectFileSpec) (p : SyncProject)
    (r : K8sObject) : Prop :=
  match matchSpec r specs with
  | some e => ∃ f, firstKeyFile S p (specKey r) = some f ∧ f.path = e.file.path
  | none => firstKeyFile S p (specKey r) = none

/-- The match predicate agrees with spec-key equality. -/
theorem specMatches_iff_key (r : K8sObject) (fs : ProjectFileSpec) :
    specMatches r fs = true ↔ specKey fs.spec = specKey r := by
  constructor
  · intro h
    simp only [specMatches, Bool.and_eq_true, decide_eq_true_eq] at h
    simp [specKey, h.1.1, h.1.2, h.2]
  · intro h
    simp only [specKey, Prod.mk.injEq] at h
    simp [specMatches, h.1, h.2.1, h.2.2]

/-- Distinct files of a path-nodup project have distinct paths. -/
theorem file_path_inj (p : SyncProject) (hn : (projectPaths p).Nodup)
    {f g : SpecFile} (hf : f ∈ p.files) (hg : g ∈ p.files) (h : f.path = g.path) :
    f = g :=
  List.inj_on_of_nodup_map hn hf hg h

/-- In a path-nodup project, looking up a member file's path finds it. -/
theorem getFile_of_mem (p : SyncProject) (hn : (projectPaths p).Nodup)
    {f : SpecFile} (hf : f ∈ p.files) : getFile p f.path = some f := by
  unfold getFile
  rcases hfind : p.files.find? (fun g => decide (g.path = f.path)) with _ | g
  · rw [List.find?_eq_none] at hfind
    exact absurd (by simp : decide (f.path = f.path) = true) (by simpa using hfind f hf)
  · have hmem := List.mem_of_find?_eq_some hfind
    have hpath : g.path = f.path := by simpa using List.find?_some hfind
    exact file_path_inj p hn hmem hf hpath ▸ hfind

/-- Setting a file's content to what every file at that path already
holds leaves the project unchanged. -/
theorem setContent_self (p : SyncProject) (path c : String)
    (h : ∀ g ∈ p.files, g.path = path → g.content = c) :
    setContent p path c = p := by
  unfold setContent
  cases p with
  | mk files =>
    simp only [SyncProject.mk.injEq]
    induction files with
    | nil => rfl
    | cons a as ih =>
      simp only [List.map_cons]
      have ha := h a (by simp)
      rw [ih (fun g hg hgp => h g (by simp [hg]) hgp)]
      by_cases hp : a.path = path
      · rw [if_pos hp, ← ha hp]
      · rw [if_neg hp]

/-- Overwriting a file's content preserves the path list. -/
theorem projectPaths_setContent (p : SyncProject) (path c : String) :
    projectPaths (setContent p path c) = projectPaths p := by
  unfold projectPaths setContent
  simp only [List.map_map]
  apply List.map_congr_left
  intro f _
  by_cases hp : f.path = path <;> simp [hp]

/-- A path that ends in `.json` does not end in `.yml` or `.yaml`. -/
theorem hasYamlExt_append_json (s : String) : hasYamlExt (s ++ ".json") = false := by
  unfold hasYamlExt
  rw [String.data_append]
  have hd : (".json" : String).data = ['.', 'j', 's', 'o', 'n'] := rfl
  rw [hd, List.reverse_append]
  simp [List.isPrefixOf]

/-- Any path returned by `uniqueSpecFile` serializes as JSON. -/
theorem fmtForPath_uniqueCandidate (root : String) (suffixes : Nat → String) (j : Nat) :
    fmtForPath (uniqueCandidate root suffixes j) = .json := by
  unfold fmtForPath
  cases j with
  | zero => rw [show uniqueCandidate root suffixes 0 = root ++ ".json" from rfl,
      hasYamlExt_append_json]; rfl
  | succ i => rw [show uniqueCandidate root suffixes (i + 1)
      = root ++ "_" ++ suffixes i ++ ".json" from rfl, hasYamlExt_append_json]; rfl

/-- After overwriting the first key-carrying file with content that still
carries the key, it is again the first key-carrying file, now with the
new content. -/
theorem find_setContent_match (S : Serializers) (k : Option String × Option String × Option String)
    (c : String) (hc : parseKey S c = some k) :
    ∀ l : List SpecFile, (l.map (fun f => f.path)).Nodup →
      ∀ g, l.find? (fun f => decide (parseKey S f.content = some k)) = some g →
      (l.map (fun f => if f.path = g.path then (⟨f.path, c⟩ : SpecFile) else f)).find?
          (fun f => decide (parseKey S f.content = some k)) = some ⟨g.path, c⟩ := by
  intro l
  induction l with
  | nil => intro _ g hg; simp at hg
  | cons a as ih =>
    intro hn g hg
    have hn' : (as.map (fun f => f.path)).Nodup := (List.nodup_cons.mp hn).2
    have hna : a.path ∉ as.map (fun f => f.path) := (List.nodup_cons.mp hn).1
    by_cases hp : parseKey S a.content = some k
    · rw [List.find?_cons_of_pos _ (by simpa using hp)] at hg
      cases hg
      simp only [List.map_cons, if_pos rfl]
      rw [List.find?_cons_of_pos _ (by simpa using hc)]
      simp
    · rw [List.find?_cons_of_neg _ (by simpa using hp)] at hg
      have hgmem := List.mem_of_find?_eq_some hg
      have hap : ¬(a.path = g.path) := fun he =>
        hna (he ▸ List.mem_map_of_mem (fun f => f.path) hgmem)
      simp only [List.map_cons, if_neg hap]
      rw [List.find?_cons_of_neg _ (by simpa using hp)]
      exact ih hn' g hg

/-- Overwriting a file whose old and new contents both avoid a key leaves
the first file carrying that key unchanged. -/
theorem find_setContent_other (S : Serializers) (k : Option String × Option String × Option String)
    (c path : String) (hcnew : parseKey S c ≠ some k) :
    ∀ l : List SpecFile, (∀ f ∈ l, f.path = path → parseKey S f.content ≠ some k) →
      (l.map (fun f => if f.path = path then (⟨f.path, c⟩ : SpecFile) else f)).find?
          (fun f => decide (parseKey S f.content = some k))
        = l.find? (fun f => decide (parseKey S f.content = some k)) := by
  intro l
  induction l with
  | nil => intro _; rfl
  | cons a as ih =>
    intro h
    have ha := h a (by simp)
    simp only [List.map_cons]
    by_cases hp : a.path = path
    · rw [if_pos hp]
      rw [List.find?_cons_of_neg _ (by simpa using hcnew),
        List.find?_cons_of_neg _ (by simpa using ha hp)]
      exact ih (fun f hf => h f (by simp [hf]))
    · rw [if_neg hp]
      by_cases hq : parseKey S a.content = some k
      · rw [List.find?_cons_of_pos _ (by simpa using hq),
          List.find?_cons_of_pos _ (by simpa using hq)]
      · rw [List.find?_cons_of_neg _ (by simpa using hq),
          List.find?_cons_of_neg _ (by simpa using hq)]
        exact ih (fun f hf => h f (by simp [hf]))

/-- `find?` over a list extended by one element. -/
theorem find_append_single {α : Type} (q : α → Bool) :
    ∀ (l : List α) (x : α), (l ++ [x]).find? q
      = match l.find? q with
        | some y => some y
        | none => if q x then some x else none := by
  intro l x
  induction l with
  | nil => cases hq : q x <;> simp [List.find?, hq]
  | cons a as ih =>
    by_cases hq : q a = true
    · rw [List.cons_append, List.find?_cons_of_pos _ hq, List.find?_cons_of_pos _ hq]
    · rw [List.cons_append, List.find?_cons_of_neg _ (by simpa using hq),
        List.find?_cons_of_neg _ (by simpa using hq)]
      exact ih

/-- When a project file carries the resource's key, matching the
resource against the scanned specs finds exactly the first such file,
with its parsed spec. -/
theorem firstKeyFile_scan_some (S : Serializers) (r : K8sObject) :
    ∀ (p : SyncProject) (g : SpecFile), firstKeyFile S p (specKey r) = some g →
      ∃ s, S.parse g.content = .ok s ∧ specKey s = specKey r ∧
        matchSpec r (scanSpecs S p) = some ⟨g, s⟩ := by
  intro p
  obtain ⟨l⟩ := p
  induction l with
  | nil => intro g hg; simp [firstKeyFile] at hg
  | cons a as ih =>
    intro g hg
    rcases hp : S.parse a.content with msg | s
    · have hpk : parseKey S a.content = none := by simp [parseKey, hp]
      rw [firstKeyFile, List.find?_cons_of_neg _ (by simp [hpk])] at hg
      obtain ⟨s, hs, hks, hm⟩ := ih g hg
      exact ⟨s, hs, hks, by simpa [matchSpec, scanSpecs, List.filterMap_cons, hp]
        using hm⟩
    · have hpk : parseKey S a.content = some (specKey s) := by simp [parseKey, hp]
      by_cases hk : specKey s = specKey r
      · rw [firstKeyFile, List.find?_cons_of_pos _ (by simp [hpk, hk])] at hg
        cases hg
        refine ⟨s, hp, hk, ?_⟩
        simp only [matchSpec, scanSpecs, List.filterMap_cons, hp]
        rw [List.find?_cons_of_pos _ (specMatches_iff_key r ⟨a, s⟩ |>.mpr hk)]
      · rw [firstKeyFile, List.find?_cons_of_neg _ (by simp [hpk, hk])] at hg
        obtain ⟨s', hs', hks', hm⟩ := ih g hg
        refine ⟨s', hs', hks', ?_⟩
        simp only [matchSpec, scanSpecs, List.filterMap_cons, hp]
        rw [List.find?_cons_of_neg _
          (by simpa using (fun hc => hk ((specMatches_iff_key r ⟨a, s⟩).mp hc)))]
        simpa [matchSpec, scanSpecs] using hm

/-- When no project file carries the resource's key, the scan yields no
match for it. -/
theorem firstKeyFile_scan_none (S : Serializers) (r : K8sObject) :
    ∀ (p : SyncProject), firstKeyFile S p (specKey r) = none →
      matchSpec r (scanSpecs S p) = none := by
  intro p
  obtain ⟨l⟩ := p
  induction l with
  | nil => intro _; rfl
  | cons a as ih =>
    intro hg
    rcases hp : S.parse a.content with msg | s
    · have hpk : parseKey S a.content = none := by simp [parseKey, hp]
      rw [firstKeyFile, List.find?_cons_of_neg _ (by simp [hpk])] at hg
      simpa [matchSpec, scanSpecs, List.filterMap_cons, hp] using ih hg
    · have hpk : parseKey S a.content = some (specKey s) := by simp [parseKey, hp]
      by_cases hk : specKey s = specKey r
      · rw [firstKeyFile, List.find?_cons_of_pos _ (by simp [hpk, hk])] at hg
        cases hg
      · rw [firstKeyFile, List.find?_cons_of_neg _ (by simp [hpk, hk])] at hg
        simp only [matchSpec, scanSpecs, List.filterMap_cons, hp]
        rw [List.find?_cons_of_neg _
          (by simpa using (fun hc => hk ((specMatches_iff_key r ⟨a, s⟩).mp hc)))]
        simpa [matchSpec, scanSpecs] using ih hg

/-- A successful match against the scanned specs names the first project
file carrying the resource's key. -/
theorem matchSpec_scan_first (S : Serializers) (r : K8sObject) :
    ∀ (p : SyncProject) (e : ProjectFileSpec), matchSpec r (scanSpecs S p) = some e →
      firstKeyFile S p (specKey r) = some e.file := by
  intro p e hm
  rcases hg : firstKeyFile S p (specKey r) with _ | g
  · rw [firstKeyFile_scan_none S r p hg] at hm
    cases hm
  · obtain ⟨s, _, _, hm'⟩ := firstKeyFile_scan_some S r p g hg
    rw [hm'] at hm
    cases hm
    rfl

/-- The scan-time invariant holds at the start of a pass: each resource's
match against the scan of the project is consistent with the project's
own first key-carrying file. -/
theorem todoOK_scan_self (S : Serializers) (p : SyncProject) (r : K8sObject) :
    TodoOK S (scanSpecs S p) p r := by
  unfold TodoOK
  rcases hm : matchSpec r (scanSpecs S p) with _ | e
  · rcases hg : firstKeyFile S p (specKey r) with _ | g
    · rfl
    · obtain ⟨s, _, _, hm'⟩ := firstKeyFile_scan_some S r p g hg
      rw [hm'] at hm
      cases hm
  · exact ⟨e.file, matchSpec_scan_first S r p e hm, rfl⟩

/-- A file found by `firstKeyFile` belongs to the project and carries the
key. -/
theorem firstKeyFile_mem (S : Serializers) (p : SyncProject)
    (k : Option String × Option String × Option String) (g : SpecFile)
    (h : firstKeyFile S p k = some g) : g ∈ p.files ∧ parseKey S g.content = some k := by
  unfold firstKeyFile at h
  exact ⟨List.mem_of_find?_eq_some h, by simpa using List.find?_some h⟩

/-- One upsert step of the apply loop preserves path-nodup, establishes
the stored-serialization property for its resource, and leaves the first
key-carrying file of every other key unchanged. -/
theorem step_upsert (S : Serializers) (opts : KubernetesSyncOptions)
    (suffixes : Nat → String) (fuel : Nat) (specs : List ProjectFileSpec)
    (r : K8sObject) (q q1 : SyncProject)
    (hn : (projectPaths q).Nodup)
    (hrt : RoundTrip S opts.secretKey r)
    (htodo : TodoOK S specs q r)
    (hstep : resourceUpserted S opts suffixes fuel r q (matchSpec r specs) = some q1) :
    (projectPaths q1).Nodup ∧ GoodFor S opts.secretKey q1 r ∧
    ∀ k, k ≠ specKey r → firstKeyFile S q1 k = firstKeyFile S q k := by
  rcases hm : matchSpec r specs with _ | e
  · unfold TodoOK at htodo
    rw [hm] at htodo hstep
    simp only [resourceUpserted, Option.map_eq_some'] at hstep
    obtain ⟨path, hpath, hq1⟩ := hstep
    obtain ⟨hfree, j, hj⟩ := uniqueSpecFileGo_spec q (kubernetesSpecFileBasename r)
      suffixes fuel 0 path hpath
    have hjson : fmtForPath path = .json := hj ▸ fmtForPath_uniqueCandidate _ suffixes j
    have hnotin : path ∉ projectPaths q := by
      intro hmem
      obtain ⟨f, hf, hfp⟩ := List.mem_map.mp hmem
      unfold getFile at hfree
      rw [List.find?_eq_none] at hfree
      exact hfree f hf (by simpa using hfp)
    have hkcj : parseKey S
        (kubernetesSpecStringify S { format := .json, secretKey := opts.secretKey } r)
        = some (specKey r) := by
      simp [parseKey, hrt.1, hrt.2.2]
    have hnone : firstKeyFile S q (specKey r) = none := htodo
    subst hq1
    refine ⟨?_, ?_, ?_⟩
    · simp only [projectPaths, addFile, List.map_append, List.map_cons, List.map_nil]
      rw [List.nodup_append]
      exact ⟨hn, List.nodup_singleton path, by
        intro a ha hb
        rw [List.mem_singleton] at hb
        exact hnotin (hb ▸ ha)⟩
    · refine ⟨⟨path, kubernetesSpecStringify S
          { format := .json, secretKey := opts.secretKey } r⟩, ?_, ?_⟩
      · show (q.files ++ [_]).find? _ = _
        rw [find_append_single]
        unfold firstKeyFile at hnone
        rw [hnone, if_pos (by simpa using hkcj)]
      · rw [hjson]
    · intro k hk
      show (q.files ++ [_]).find? _ = _
      rw [find_append_single]
      rcases hq : firstKeyFile S q k with _ | y
      · unfold firstKeyFile at hq
        rw [hq, if_neg]
        simp only [decide_eq_true_eq]
        rw [hkcj]
        exact fun hc => hk (Option.some.inj hc).symm
      · unfold firstKeyFile at hq
        rw [hq]
  · unfold TodoOK at htodo
    rw [hm] at htodo hstep
    obtain ⟨g, hg, hgp⟩ := htodo
    obtain ⟨hgmem, hgkey⟩ := firstKeyFile_mem S q (specKey r) g hg
    simp only [resourceUpserted, Option.some.injEq] at hstep
    have hkc : parseKey S
        (kubernetesSpecStringify S
          { format := if hasYamlExt e.file.path then .yaml else .json,
            secretKey := opts.secretKey } r)
        = some (specKey r) := by
      by_cases hyaml : hasYamlExt e.file.path = true
      · simp [hyaml, parseKey, hrt.2.1, hrt.2.2]
      · simp only [Bool.not_eq_true] at hyaml
        simp [hyaml, parseKey, hrt.1, hrt.2.2]
    subst hstep
    refine ⟨?_, ?_, ?_⟩
    · rw [projectPaths_setContent]
      exact hn
    · refine ⟨⟨e.file.path, kubernetesSpecStringify S
          { format := if hasYamlExt e.file.path then .yaml else .json,
            secretKey := opts.secretKey } r⟩, ?_, ?_⟩
      · have := find_setContent_match S (specKey r)
          (kubernetesSpecStringify S
            { format := if hasYamlExt e.file.path then .yaml else .json,
              secretKey := opts.secretKey } r) hkc q.files hn g hg
        rw [hgp] at this
        simpa [firstKeyFile, setContent] using this
      · rfl
    · intro k hk
      have hcnew : parseKey S
          (kubernetesSpecStringify S
            { format := if hasYamlExt e.file.path then .yaml else .json,
              secretKey := opts.secretKey } r)
          ≠ some k := by
        rw [hkc]
        exact fun hc => hk (Option.some.inj hc).symm
      have hold : ∀ f ∈ q.files, f.path = e.file.path → parseKey S f.content ≠ some k := by
        intro f hf hfp
        have : f = g := file_path_inj q hn hf hgmem (by rw [hfp, hgp])
        rw [this, hgkey]
        exact fun hc => hk (Option.some.inj hc).symm
      have := find_setContent_other S k
        (kubernetesSpecStringify S
          { format := if hasYamlExt e.file.path then .yaml else .json,
            secretKey := opts.secretKey } r) e.file.path hcnew q.files hold
      simpa [firstKeyFile, setContent] using this

/-- The upsert apply loop over key-distinct resources leaves every
processed resource's serialization stored in the first file carrying its
key, preserves path-nodup, and does not disturb other keys. -/
theorem applyUpsert_good (S : Serializers) (opts : KubernetesSyncOptions)
    (suffixes : Nat → String) (fuel : Nat) (specs : List ProjectFileSpec) :
    ∀ (rs : List K8sObject) (q q' : SyncProject),
      (projectPaths q).Nodup →
      rs.Pairwise (fun a b => specKey a ≠ specKey b) →
      (∀ r ∈ rs, RoundTrip S opts.secretKey r) →
      (∀ r ∈ rs, TodoOK S specs q r) →
      applyResources S .upsert opts suffixes fuel specs rs q = some q' →
      (projectPaths q').Nodup ∧ (∀ r ∈ rs, GoodFor S opts.secretKey q' r) ∧
      (∀ k, (∀ r ∈ rs, specKey r ≠ k) → firstKeyFile S q' k = firstKeyFile S q k) := by
  intro rs
  induction rs with
  | nil =>
    intro q q' hn _ _ _ happly
    simp only [applyResources, Option.some.injEq] at happly
    subst happly
    exact ⟨hn, by simp, fun k _ => rfl⟩
  | cons r rest ih =>
    intro q q' hn hpair hrt htodo happly
    simp only [applyResources] at happly
    rcases hstep : resourceUpserted S opts suffixes fuel r q (matchSpec r specs) with _ | q1
    · rw [hstep] at happly
      cases happly
    · rw [hstep] at happly
      have hkeyne : ∀ r' ∈ rest, specKey r' ≠ specKey r :=
        fun r' hr' => fun hc => (List.pairwise_cons.mp hpair).1 r' hr' hc.symm
      obtain ⟨hn1, hgood1, hpres1⟩ := step_upsert S opts suffixes fuel specs r q q1 hn
        (hrt r (by simp)) (htodo r (by simp)) hstep
      have htodo1 : ∀ r' ∈ rest, TodoOK S specs q1 r' := by
        intro r' hr'
        have h0 := htodo r' (by simp [hr'])
        have hfk := hpres1 (specKey r') (hkeyne r' hr')
        unfold TodoOK at h0 ⊢
        rcases hm' : matchSpec r' specs with _ | e'
        · rw [hm'] at h0
          rw [hfk, h0]
        · rw [hm'] at h0
          obtain ⟨f, hf, hfp⟩ := h0
          exact ⟨f, by rw [hfk, hf], hfp⟩
      obtain ⟨hn', hgood', hpres'⟩ := ih q1 q' hn1
        (List.pairwise_cons.mp hpair).2
        (fun r' hr' => hrt r' (by simp [hr'])) htodo1 happly
      refine ⟨hn', ?_, ?_⟩
      · intro r' hr'
        rcases List.mem_cons.mp hr' with rfl | hr''
        · obtain ⟨f, hf, hcontent⟩ := hgood1
          exact ⟨f, by rw [hpres' (specKey r') (fun x hx => hkeyne x hx), hf], hcontent⟩
        · exact hgood' r' hr''
      · intro k hk
        rw [hpres' k (fun x hx => hk x (by simp [hx])),
          hpres1 k (fun hc => hk r (by simp) hc.symm)]

/-- The upsert apply loop is the identity on a project that already
stores every resource's serialization in its first key-carrying file. -/
theorem applyUpsert_identity (S : Serializers) (opts : KubernetesSyncOptions)
    (suffixes : Nat → String) (fuel : Nat) :
    ∀ (rs : List K8sObject) (p : SyncProject),
      (projectPaths p).Nodup →
      (∀ r ∈ rs, GoodFor S opts.secretKey p r) →
      applyResources S .upsert opts suffixes fuel (scanSpecs S p) rs p = some p := by
  intro rs
  induction rs with
  | nil => intro p _ _; rfl
  | cons r rest ih =>
    intro p hn hgood
    obtain ⟨f, hf, hcontent⟩ := hgood r (by simp)
    obtain ⟨s, hs, hks, hm⟩ := firstKeyFile_scan_some S r p f hf
    have hfmem : f ∈ p.files := (firstKeyFile_mem S p (specKey r) f hf).1
    simp only [applyResources, hm, resourceUpserted]
    have hset : setContent p f.path
        (kubernetesSpecStringify S
          { format := if hasYamlExt f.path then .yaml else .json,
            secretKey := opts.secretKey } r) = p := by
      apply setContent_self
      intro g hg hgp
      rw [file_path_inj p hn hg hfmem hgp, hcontent]
      rfl
    rw [hset]
    exact ih p hn (fun r' hr' => hgood r' (by simp [hr']))

/-- C8 (amended): an upsert sync pass over resources with pairwise
distinct match keys, with round-tripping serializers, is idempotent: a
second pass with the same application and resources finds the working
copy clean and performs no second commit and no second push. -/
theorem sync_upsert_idempotent_amended (S : Serializers) (app : KubernetesDelete)
    (resources : List K8sObject) (opts : KubernetesSyncOptions)
    (suffixes suffixes' : Nat → String) (fuel fuel' : Nat)
    (ce pe ce' pe' : Option String) (st0 st1 : GitState)
    (hn : (projectPaths st0.project).Nodup)
    (hdist : resources.Pairwise (fun a b => specKey a ≠ specKey b))
    (hrt : ∀ r ∈ resources, RoundTrip S opts.secretKey r)
    (h1 : syncResources S app resources .upsert opts suffixes fuel ce pe st0 = .ok st1) :
    syncResources S app resources .upsert opts suffixes' fuel' ce' pe' st1 = .ok st1 := by
  rcases happ : applyResources S .upsert opts suffixes fuel (scanSpecs S st0.project)
      resources st0.project with _ | P1
  · simp [syncResources, happ] at h1
  · simp only [syncResources, happ] at h1
    have hfacts : st1.project = P1 ∧ st1.committed = P1 := by
      by_cases hclean : isClean { st0 with project := P1 } = true
      · rw [if_pos hclean] at h1
        unfold isClean at hclean
        simp only [decide_eq_true_eq] at hclean
        cases h1
        exact ⟨rfl, hclean.symm⟩
      · rw [if_neg hclean] at h1
        rcases ce with _ | e1
        · rcases pe with _ | e2
          · cases h1
            exact ⟨rfl, rfl⟩
          · cases h1
        · cases h1
    obtain ⟨hproj, hcomm⟩ := hfacts
    obtain ⟨hn1, hgood, _⟩ := applyUpsert_good S opts suffixes fuel
      (scanSpecs S st0.project) resources st0.project P1 hn hdist hrt
      (fun r _ => todoOK_scan_self S st0.project r) happ
    have hid := applyUpsert_identity S opts suffixes' fuel' resources P1 hn1 hgood
    have hst : { st1 with project := P1 } = st1 := by rw [← hproj]
    have hc : isClean st1 = true := by
      unfold isClean
      rw [hproj, hcomm]
      simp
    simp only [syncResources, hproj, hid]
    rw [hst, if_pos hc]

/-- A resource used to exhibit non-idempotence: an apps/v1 Deployment. -/
def ctexResourceOne : K8sObject :=
  ⟨some ("apps/v1"), some ("Deployment"), ⟨some ("tonina"), some ("black-angel")⟩⟩

/-- A second resource with the same kind, name and namespace but a
different apiVersion, hence the same match key and different serialized
content. -/
def ctexResourceTwo : K8sObject :=
  ⟨some ("extensions/v1beta1"), some ("Deployment"), ⟨some ("tonina"), some ("black-angel")⟩⟩

/-- Concrete round-tripping serializers distinguishing the two
resources. -/
def ctexSerializers : Serializers :=
  { jsonDump := fun r => if r = ctexResourceOne then "one" else "two",
    yamlDump := fun _ => "y",
    encrypt := fun r _ => r,
    parse := fun s =>
      if s = "one\n" then .ok ctexResourceOne
      else if s = "two\n" then .ok ctexResourceTwo
      else .error ("parse") }

/-- The application of the counterexample. -/
def ctexApp : KubernetesDelete := ⟨"tonina", "black-angel"⟩

/-- A fresh clone of an empty sync repository. -/
def ctexStart : GitState := ⟨⟨[]⟩, ⟨[]⟩, [], 0⟩

/-- The state after the first pass: two files with the same match key,
one commit, one push. -/
def ctexMid : GitState :=
  ⟨⟨[⟨"70_black-angel_tonina_deployment.json", "one\n"⟩,
     ⟨"70_black-angel_tonina_deployment_abcd1234.json", "two\n"⟩]⟩,
   ⟨[⟨"70_black-angel_tonina_deployment.json", "one\n"⟩,
     ⟨"70_black-angel_tonina_deployment_abcd1234.json", "two\n"⟩]⟩,
   ["Update specs for black-angel/tonina\n\n[atomist:generated] "
     ++ commitTag ++ "\n"], 1⟩

/-- The state after the second pass: both resources match the first
file, whose content flips, so a second commit and push occur. -/
def ctexEnd : GitState :=
  ⟨⟨[⟨"70_black-angel_tonina_deployment.json", "two\n"⟩,
     ⟨"70_black-angel_tonina_deployment_abcd1234.json", "two\n"⟩]⟩,
   ⟨[⟨"70_black-angel_tonina_deployment.json", "two\n"⟩,
     ⟨"70_black-angel_tonina_deployment_abcd1234.json", "two\n"⟩]⟩,
   ["Update specs for black-angel/tonina\n\n[atomist:generated] "
     ++ commitTag ++ "\n",
    "Update specs for black-angel/tonina\n\n[atomist:generated] "
     ++ commitTag ++ "\n"], 2⟩

/-- C8 fails as stated: running the same upsert pass twice with the same
application and resource list is not always idempotent — with two
resources sharing a match key, the second pass dirties the working copy
and performs a second commit and a second push. -/
theorem sync_upsert_idempotent_counterexample :
    syncResources ctexSerializers ctexApp [ctexResourceOne, ctexResourceTwo]
        .upsert {} (fun _ => "abcd1234") 3 none none ctexStart = .ok ctexMid ∧
    syncResources ctexSerializers ctexApp [ctexResourceOne, ctexResourceTwo]
        .upsert {} (fun _ => "abcd1234") 3 none none ctexMid = .ok ctexEnd ∧
    ctexMid.commits.length = 1 ∧ ctexEnd.commits.length = 2 ∧
    ctexMid.pushes = 1 ∧ ctexEnd.pushes = 2 ∧ ctexEnd ≠ ctexMid := by
  refine ⟨by decide, by decide, rfl, rfl, rfl, rfl, by decide⟩

/-- A resource with a key distinct from every other in its singleton
list, for the amended-idempotence witness. -/
def wResource : K8sObject := ⟨some ("v1"), some ("Service"), ⟨some ("a"), none⟩⟩

/-- Concrete serializers that round-trip on [wResource]. -/
def wSerializers : Serializers :=
  { jsonDump := fun _ => "E",
    yamlDump := fun _ => "E\n",
    encrypt := fun r _ => r,
    parse := fun s => if s = "E\n" then .ok wResource else .error ("x") }

/-- The application of the witness run. -/
def wApp : KubernetesDelete := ⟨"a", "b"⟩

/-- A fresh clone of an empty sync repository for the witness run. -/
def wStart : GitState := ⟨⟨[]⟩, ⟨[]⟩, [], 0⟩

/-- The state after the witness's first pass. -/
def wMid : GitState :=
  ⟨⟨[⟨"50_a_service.json", "E\n"⟩]⟩, ⟨[⟨"50_a_service.json", "E\n"⟩]⟩,
   ["Update specs for b/a\n\n[atomist:generated] " ++ commitTag ++ "\n"], 1⟩

/-- Witness for the amended C8: a concrete first pass followed by a
second pass that returns the same state unchanged. -/
theorem sync_upsert_idempotent_amended_witness :
    syncResources wSerializers wApp [wResource] .upsert {} (fun _ => "s") 2 none none
        wStart = .ok wMid ∧
    syncResources wSerializers wApp [wResource] .upsert {} (fun _ => "s") 2 none none
        wMid = .ok wMid :=
  ⟨by decide,
   sync_upsert_idempotent_amended wSerializers wApp [wResource] {} (fun _ => "s")
     (fun _ => "s") 2 2 none none none none wStart wMid (by decide) (by decide)
     (by
       intro r hr
       rw [List.mem_singleton] at hr
       subst hr
       exact ⟨by decide, by decide, by decide⟩)
     (by decide)⟩
